import Mathlib

/-!
Verification development for the vue-css-modules-extension language server.

The embedding below translates the server module (`server/src/server.ts`) and
the SFC parser wrapper (`server/src/parser/vue.ts`) into Lean. The external
libraries (vscode-css-languageservice, @vue/component-compiler-utils) are
treated as oracles: the stylesheet symbol enumeration is a parameter
`findSymbols`, and the SFC parse result is a parameter of the rebuild.

JavaScript peculiarities that matter to the claims are modelled explicitly:
truthiness of strings and arrays (`style.lang || 'css'`,
`parser.getStyles() || []`, `!className`), `Map` insertion order, and the fact
that `validateTextDocument` clears the published state before it parses.
-/

/-- Numeric code of `SymbolKind.Class` in vscode-languageserver-types. -/
def SymbolKind.Class : Nat := 5

/-- Numeric code of `CompletionItemKind.Property` in the LSP types. -/
def CompletionItemKind.Property : Nat := 10

/-- A document symbol as reported by the stylesheet language service
(`findDocumentSymbols`): its raw selector name (e.g. `.hello` or `#App`)
and its symbol kind code. -/
structure SymbolInformation where
  name : String
  kind : Nat
deriving DecidableEq, Repr

/-- An LSP completion item as built by the server: a label and an item kind. -/
structure CompletionItem where
  label : String
  kind : Nat
deriving DecidableEq, Repr

/-- The three stylesheet language services the server can obtain from
vscode-css-languageservice. -/
inductive LangService where
  | css
  | scss
  | less
deriving DecidableEq, Repr

/-- Translation of `getLanguageService` in server.ts: a switch on the string
argument with cases `'.less'` and `'.scss'` and a default of the plain CSS
service. The parameter is named `fileExtension` in the source. -/
def getLanguageService (fileExtension : String) : LangService :=
  if fileExtension = ".less" then LangService.less
  else if fileExtension = ".scss" then LangService.scss
  else LangService.css

/-- A `<style>` block of the SFC as produced by the Vue parser (an `SFCBlock`
of @vue/component-compiler-utils): the module flag (`!!style.module` in the
server), the optional `lang` attribute, and the raw content. -/
structure SFCBlock where
  module : Bool
  lang : Option String
  content : String
deriving DecidableEq, Repr

/-- The SFC descriptor; the server only uses its `styles` field. The field is
an `Option` so that the JavaScript `|| null` in `VueParser.getStyles` has
something to act on: `none` models an absent/undefined field. -/
structure SFCDescriptor where
  styles : Option (List SFCBlock)
deriving DecidableEq, Repr

/-- Translation of `VueParser.getStyles` in parser/vue.ts:
`return this.descriptor.styles || null`. A JavaScript array is truthy even
when it is empty, so an array field is returned as-is and only an
absent/undefined field becomes `null`. -/
def VueParser.getStyles (d : SFCDescriptor) : Option (List SFCBlock) :=
  match d.styles with
  | some l => some l
  | none => none

/-- The server settings interface; a single numeric field. -/
structure Settings where
  maxNumberOfProblems : Nat
deriving DecidableEq, Repr

/-- Translation of `defaultSettings` in server.ts:
`const defaultSettings: Settings = { maxNumberOfProblems: 1000 }`. -/
def defaultSettings : Settings := { maxNumberOfProblems := 1000 }

/-- JavaScript `a || d` for an optional string `a`: the default is used when
the value is absent or the empty string (both falsy). Models
`style.lang || 'css'`. -/
def jsOrDefault (a : Option String) (d : String) : String :=
  match a with
  | none => d
  | some s => if s = "" then d else s

/-- The name-keyed completion-item mapping `compItemMap` (a JavaScript `Map`),
modelled as an association list in insertion order. -/
abbrev CompMap := List (String × CompletionItem)

/-- JavaScript `Map.get`: the first entry with the given key, if any. -/
def mapGet (m : CompMap) (k : String) : Option CompletionItem :=
  (m.find? (fun e => e.1 = k)).map (fun e => e.2)

/-- JavaScript `Map.set`: replace the value in place when the key exists,
append a new entry otherwise. -/
def mapSet (m : CompMap) (k : String) (v : CompletionItem) : CompMap :=
  if (m.find? (fun e => e.1 = k)).isSome then
    m.map (fun e => if e.1 = k then (k, v) else e)
  else m ++ [(k, v)]

/-- JavaScript `Map.values()`: the values in insertion order. -/
def mapValues (m : CompMap) : List CompletionItem :=
  m.map (fun e => e.2)

/-- The mutable server state the claims are about: `compItemMap` and the
published `completionItems` array. -/
structure ServerState where
  compItemMap : CompMap
  completionItems : List CompletionItem
deriving DecidableEq, Repr

/-- The state at server start: `completionItems` is the empty array and
`compItemMap` is an empty `Map`. -/
def initialServerState : ServerState :=
  { compItemMap := [], completionItems := [] }

/-- Translation of the body of the symbol loop in `validateTextDocument`:
`isClassSymbol` is `sym.kind === SymbolKind.Class`; `className` is
`sym.name.slice(1)` when `sym.name.slice(0, 1) === '.'` and `null` otherwise;
the symbol is skipped when `!isClassSymbol || !className` (JavaScript
`!className` holds for `null` and for the empty string); otherwise a
completion item with the bare name as label and kind `Property` is built and
`compItemMap.set` runs only when `compItemMap.get` finds nothing. -/
def symStep (m : CompMap) (sym : SymbolInformation) : CompMap :=
  let isClassSymbol : Bool := sym.kind = SymbolKind.Class
  let className : Option String :=
    if sym.name.take 1 = "." then some (sym.name.drop 1) else none
  if !isClassSymbol || className.getD "" = "" then m
  else
    let cn := className.getD ""
    let completionItem : CompletionItem :=
      { label := cn, kind := CompletionItemKind.Property }
    if (mapGet m cn).isSome then m else mapSet m cn completionItem

/-- Translation of one iteration of the style loop in `validateTextDocument`:
non-module blocks are skipped (`continue`); for a module block the language
service is selected from `style.lang || 'css'`, the service enumerates the
document symbols of the block content, the symbol loop folds them into the
mapping, and `completionItems` is reassigned to `[...compItemMap.values()]`. -/
def blockStep (findSymbols : LangService → String → List SymbolInformation)
    (st : ServerState) (style : SFCBlock) : ServerState :=
  if !style.module then st
  else
    let lang := jsOrDefault style.lang "css"
    let languageService := getLanguageService lang
    let documentSymbols := findSymbols languageService style.content
    let m := documentSymbols.foldl symStep st.compItemMap
    { compItemMap := m, completionItems := mapValues m }

/-- Translation of `validateTextDocument` in server.ts, parameterised by the
stylesheet services (`findSymbols`), the module-level `globalSettings` the
function could read but never does, and the result of `parser.getStyles()`.
The function first clears `compItemMap` and truncates `completionItems`
(`completionItems.length = 0`), so the prior state `_st` contributes nothing;
`styles` is `parser.getStyles() || []` (a JavaScript array is truthy even when
empty, so only a `null` result becomes `[]`); then the style loop runs. -/
def validateTextDocument (findSymbols : LangService → String → List SymbolInformation)
    (_globalSettings : Settings) (getStylesResult : Option (List SFCBlock))
    (_st : ServerState) : ServerState :=
  let cleared : ServerState := { compItemMap := [], completionItems := [] }
  let styles := getStylesResult.getD []
  styles.foldl (blockStep findSymbols) cleared

/-- Translation of `validateTextDocument` including the failure path of the
SFC parse (`new VueParser(...)` / `parser.getStyles()`): the clearing of
`compItemMap` and `completionItems` happens before the parser is constructed,
so when the parse throws, the exception propagates out of the function and the
state left behind is the cleared state. -/
def validateTextDocumentWithParse
    (findSymbols : LangService → String → List SymbolInformation)
    (g : Settings) (parseResult : Except Unit (Option (List SFCBlock)))
    (st : ServerState) : ServerState :=
  let cleared : ServerState := { compItemMap := [], completionItems := [] }
  match parseResult with
  | Except.error _ => cleared
  | Except.ok stylesResult => validateTextDocument findSymbols g stylesResult st

/-- The position parameter of a completion request; the handler ignores it. -/
structure TextDocumentPositionParams where
  uri : String
  line : Nat
  character : Nat
deriving DecidableEq, Repr

/-- Translation of the `connection.onCompletion` handler: it ignores the
`_textDocumentPosition` parameter and returns `completionItems`. -/
def onCompletion (st : ServerState)
    (_textDocumentPosition : TextDocumentPositionParams) : List CompletionItem :=
  st.completionItems

/-- The completion item the server builds for a bare class name: the label is
the bare name and the kind is `Property`. -/
def mkCompletionItem (cn : String) : CompletionItem :=
  { label := cn, kind := CompletionItemKind.Property }

/-- The bare class name the symbol loop admits for a symbol, if any: the
symbol must have class kind, its raw name must begin with `.`, and the bare
name left after removing that dot must be non-empty. -/
def admittedName (sym : SymbolInformation) : Option String :=
  if sym.kind = SymbolKind.Class ∧ sym.name.take 1 = "." ∧ sym.name.drop 1 ≠ ""
  then some (sym.name.drop 1) else none

/-- The effect of one admitted bare name on the mapping: insert it (with its
completion item) only when the key is not yet present. -/
def insertIfNew (m : CompMap) (cn : String) : CompMap :=
  if (mapGet m cn).isSome then m else mapSet m cn (mkCompletionItem cn)

/-- The bare names one module block contributes, in symbol order. -/
def blockNames (findSymbols : LangService → String → List SymbolInformation)
    (style : SFCBlock) : List String :=
  (findSymbols (getLanguageService (jsOrDefault style.lang "css")) style.content).filterMap
    admittedName

/-- The bare names a whole rebuild sees, in block order then symbol order;
non-module blocks contribute nothing. -/
def rebuildNames (findSymbols : LangService → String → List SymbolInformation) :
    List SFCBlock → List String
  | [] => []
  | b :: l =>
      (if b.module then blockNames findSymbols b else []) ++ rebuildNames findSymbols l

/-- First-occurrence deduplication: an element already seen (or seen earlier
in the list) is dropped, so the first occurrence of each name survives in its
original position. -/
def dedupKeepFirst (seen : List String) : List String → List String
  | [] => []
  | a :: l => if a ∈ seen then dedupKeepFirst seen l else a :: dedupKeepFirst (a :: seen) l

theorem symStep_eq_admitted (m : CompMap) (sym : SymbolInformation) :
    symStep m sym =
      match admittedName sym with
      | none => m
      | some cn => insertIfNew m cn := by
  unfold symStep admittedName insertIfNew
  by_cases hk : sym.kind = SymbolKind.Class
  · by_cases hd : sym.name.take 1 = "."
    · by_cases he : sym.name.drop 1 = ""
      · simp [hk, hd, he, mkCompletionItem]
      · simp [hk, hd, he, mkCompletionItem]
    · simp [hk, hd]
  · simp [hk]

theorem foldl_symStep_eq (syms : List SymbolInformation) : ∀ m : CompMap,
    syms.foldl symStep m = (syms.filterMap admittedName).foldl insertIfNew m := by
  induction syms with
  | nil => intro m; rfl
  | cons s l ih =>
      intro m
      rw [List.foldl_cons, symStep_eq_admitted]
      cases h : admittedName s with
      | none => simp [List.filterMap_cons, h, ih]
      | some cn => simp [List.filterMap_cons, h, List.foldl_cons, ih]

theorem dedupKeepFirst_congr (l : List String) : ∀ s t : List String,
    (∀ x, x ∈ s ↔ x ∈ t) → dedupKeepFirst s l = dedupKeepFirst t l := by
  induction l with
  | nil => intro s t _; rfl
  | cons a l ih =>
      intro s t hst
      unfold dedupKeepFirst
      by_cases ha : a ∈ s
      · rw [if_pos ha, if_pos ((hst a).mp ha), ih s t hst]
      · rw [if_neg ha, if_neg (fun h => ha ((hst a).mpr h))]
        rw [ih (a :: s) (a :: t) (by intro x; simp [hst x])]

theorem mem_dedupKeepFirst (x : String) (l : List String) : ∀ seen : List String,
    x ∈ dedupKeepFirst seen l ↔ x ∈ l ∧ x ∉ seen := by
  induction l with
  | nil => intro seen; simp [dedupKeepFirst]
  | cons a l ih =>
      intro seen
      unfold dedupKeepFirst
      by_cases ha : a ∈ seen
      · rw [if_pos ha, ih]
        constructor
        · rintro ⟨hx, hs⟩
          exact ⟨List.mem_cons_of_mem _ hx, hs⟩
        · rintro ⟨hx, hs⟩
          rcases List.mem_cons.mp hx with rfl | hx
          · exact absurd ha hs
          · exact ⟨hx, hs⟩
      · rw [if_neg ha]
        constructor
        · intro hx
          rcases List.mem_cons.mp hx with rfl | hx2
          · exact ⟨List.mem_cons_self _ _, ha⟩
          · obtain ⟨h1, h2⟩ := (ih (a :: seen)).mp hx2
            exact ⟨List.mem_cons_of_mem _ h1, fun h => h2 (List.mem_cons_of_mem _ h)⟩
        · rintro ⟨hx, hs⟩
          rcases List.mem_cons.mp hx with rfl | hx2
          · exact List.mem_cons_self x _
          · by_cases hxa : x = a
            · subst hxa; exact List.mem_cons_self x _
            · refine List.mem_cons_of_mem _ ((ih (a :: seen)).mpr ⟨hx2, ?_⟩)
              intro h
              rcases List.mem_cons.mp h with h | h
              · exact hxa h
              · exact hs h

theorem nodup_dedupKeepFirst (l : List String) : ∀ seen : List String,
    (dedupKeepFirst seen l).Nodup := by
  induction l with
  | nil => intro seen; simp [dedupKeepFirst]
  | cons a l ih =>
      intro seen
      unfold dedupKeepFirst
      by_cases ha : a ∈ seen
      · rw [if_pos ha]; exact ih seen
      · rw [if_neg ha]
        refine List.nodup_cons.mpr ⟨?_, ih (a :: seen)⟩
        intro hmem
        exact ((mem_dedupKeepFirst a l (a :: seen)).mp hmem).2 (List.mem_cons_self a seen)

theorem mapGet_isSome_eq_find (m : CompMap) (k : String) :
    (mapGet m k).isSome = (m.find? (fun e => e.1 = k)).isSome := by
  unfold mapGet
  cases m.find? (fun e => e.1 = k) <;> rfl

theorem mapGet_isSome (m : CompMap) (k : String) :
    (mapGet m k).isSome = true ↔ k ∈ m.map Prod.fst := by
  rw [mapGet_isSome_eq_find, List.find?_isSome]
  simp only [List.mem_map, decide_eq_true_eq]

theorem foldl_insertIfNew_eq (names : List String) : ∀ m : CompMap,
    names.foldl insertIfNew m =
      m ++ (dedupKeepFirst (m.map Prod.fst) names).map (fun cn => (cn, mkCompletionItem cn)) := by
  induction names with
  | nil => intro m; simp [dedupKeepFirst]
  | cons a l ih =>
      intro m
      rw [List.foldl_cons]
      unfold dedupKeepFirst
      by_cases ha : a ∈ m.map Prod.fst
      · have hstep : insertIfNew m a = m := by
          unfold insertIfNew
          rw [if_pos ((mapGet_isSome m a).mpr ha)]
        rw [hstep, if_pos ha, ih m]
      · have hget : (mapGet m a).isSome = false := by
          rw [Bool.eq_false_iff]
          intro h; exact ha ((mapGet_isSome m a).mp h)
        have hfind : (m.find? (fun e => e.1 = a)).isSome = false := by
          rw [← mapGet_isSome_eq_find]; exact hget
        have hstep : insertIfNew m a = m ++ [(a, mkCompletionItem a)] := by
          unfold insertIfNew mapSet
          rw [hget, hfind]
          simp
        rw [hstep, if_neg ha, ih (m ++ [(a, mkCompletionItem a)])]
        have hkeys : (m ++ [(a, mkCompletionItem a)]).map Prod.fst = m.map Prod.fst ++ [a] := by
          simp
        rw [hkeys,
          dedupKeepFirst_congr l (m.map Prod.fst ++ [a]) (a :: m.map Prod.fst)
            (by intro x; simp [or_comm])]
        simp

theorem blockStep_module (f : LangService → String → List SymbolInformation)
    (st : ServerState) (b : SFCBlock) (hb : b.module = true) :
    blockStep f st b =
      { compItemMap := (blockNames f b).foldl insertIfNew st.compItemMap,
        completionItems :=
          mapValues ((blockNames f b).foldl insertIfNew st.compItemMap) } := by
  unfold blockStep blockNames
  rw [hb]
  simp [foldl_symStep_eq]

theorem blockStep_nonmodule (f : LangService → String → List SymbolInformation)
    (st : ServerState) (b : SFCBlock) (hb : b.module = false) :
    blockStep f st b = st := by
  unfold blockStep
  rw [hb]
  rfl

theorem compItemMap_foldBlocks (f : LangService → String → List SymbolInformation)
    (styles : List SFCBlock) : ∀ (m : CompMap) (items : List CompletionItem),
    ((styles.foldl (blockStep f) ⟨m, items⟩).compItemMap) =
      (rebuildNames f styles).foldl insertIfNew m := by
  induction styles with
  | nil => intro m items; rfl
  | cons b l ih =>
      intro m items
      rw [List.foldl_cons]
      by_cases hb : b.module = true
      · rw [blockStep_module f ⟨m, items⟩ b hb]
        show _ = (rebuildNames f (b :: l)).foldl insertIfNew m
        unfold rebuildNames
        rw [if_pos hb, List.foldl_append]
        exact ih _ _
      · have hb0 : b.module = false := Bool.not_eq_true _ |>.mp hb
        rw [blockStep_nonmodule f ⟨m, items⟩ b hb0]
        show _ = (rebuildNames f (b :: l)).foldl insertIfNew m
        unfold rebuildNames
        rw [if_neg hb, List.nil_append]
        exact ih m items

theorem foldBlocks_items (f : LangService → String → List SymbolInformation)
    (styles : List SFCBlock) : ∀ st : ServerState,
    st.completionItems = mapValues st.compItemMap →
    (styles.foldl (blockStep f) st).completionItems =
      mapValues ((styles.foldl (blockStep f) st).compItemMap) := by
  induction styles with
  | nil => intro st h; exact h
  | cons b l ih =>
      intro st h
      rw [List.foldl_cons]
      by_cases hb : b.module = true
      · exact ih _ (by rw [blockStep_module f st b hb])
      · have hb0 : b.module = false := Bool.not_eq_true _ |>.mp hb
        rw [blockStep_nonmodule f st b hb0]
        exact ih st h

/-- Full characterisation of a successful rebuild: the mapping is the
first-occurrence deduplication of the admitted bare names (in block order then
symbol order), keyed by bare name with the corresponding completion item as
value, and the published list is exactly its values. -/
theorem validateTextDocument_spec (f : LangService → String → List SymbolInformation)
    (g : Settings) (stylesOpt : Option (List SFCBlock)) (st : ServerState) :
    validateTextDocument f g stylesOpt st =
      { compItemMap := (dedupKeepFirst [] (rebuildNames f (stylesOpt.getD []))).map
          (fun cn => (cn, mkCompletionItem cn)),
        completionItems := (dedupKeepFirst [] (rebuildNames f (stylesOpt.getD []))).map
          mkCompletionItem } := by
  have hmap : (validateTextDocument f g stylesOpt st).compItemMap =
      (dedupKeepFirst [] (rebuildNames f (stylesOpt.getD []))).map
        (fun cn => (cn, mkCompletionItem cn)) := by
    unfold validateTextDocument
    rw [compItemMap_foldBlocks f (stylesOpt.getD []) [] []]
    rw [foldl_insertIfNew_eq]
    simp
  have hitems : (validateTextDocument f g stylesOpt st).completionItems =
      mapValues ((validateTextDocument f g stylesOpt st).compItemMap) := by
    unfold validateTextDocument
    exact foldBlocks_items f (stylesOpt.getD []) ⟨[], []⟩ rfl
  have heta : validateTextDocument f g stylesOpt st =
      ServerState.mk (validateTextDocument f g stylesOpt st).compItemMap
        (validateTextDocument f g stylesOpt st).completionItems := rfl
  rw [heta, hitems, hmap]
  simp [mapValues, List.map_map, Function.comp]

theorem mapGet_keyed (x : String) : ∀ l : List String,
    mapGet (l.map (fun cn => (cn, mkCompletionItem cn))) x =
      if x ∈ l then some (mkCompletionItem x) else none := by
  intro l
  induction l with
  | nil => simp [mapGet]
  | cons a t ih =>
      by_cases hx : a = x
      · subst hx
        unfold mapGet
        rw [List.map_cons, List.find?_cons_of_pos _ (by simp)]
        simp
      · unfold mapGet
        rw [List.map_cons, List.find?_cons_of_neg _ (by simp [hx])]
        unfold mapGet at ih
        rw [ih]
        have hmem : (x ∈ a :: t) ↔ (x ∈ t) := by
          rw [List.mem_cons]
          exact or_iff_right (fun h => hx h.symm)
        by_cases hxt : x ∈ t
        · rw [if_pos hxt, if_pos (hmem.mpr hxt)]
        · rw [if_neg hxt, if_neg (fun h => hxt (hmem.mp h))]

theorem admittedName_eq_some (sym : SymbolInformation) (cn : String) :
    admittedName sym = some cn ↔
      sym.kind = SymbolKind.Class ∧ sym.name.take 1 = "." ∧
        sym.name.drop 1 = cn ∧ cn ≠ "" := by
  unfold admittedName
  by_cases h : sym.kind = SymbolKind.Class ∧ sym.name.take 1 = "." ∧ sym.name.drop 1 ≠ ""
  · obtain ⟨h1, h2, h3⟩ := h
    rw [if_pos ⟨h1, h2, h3⟩]
    simp only [Option.some.injEq]
    constructor
    · rintro rfl; exact ⟨h1, h2, rfl, h3⟩
    · rintro ⟨_, _, rfl, _⟩; rfl
  · rw [if_neg h]
    simp only [false_iff, reduceCtorEq]
    rintro ⟨h1, h2, rfl, h4⟩
    exact h ⟨h1, h2, h4⟩

theorem mem_blockNames (f : LangService → String → List SymbolInformation)
    (b : SFCBlock) (x : String) :
    x ∈ blockNames f b ↔
      ∃ sym ∈ f (getLanguageService (jsOrDefault b.lang "css")) b.content,
        admittedName sym = some x := by
  unfold blockNames
  rw [List.mem_filterMap]

theorem mem_rebuildNames (f : LangService → String → List SymbolInformation)
    (x : String) : ∀ styles : List SFCBlock,
    x ∈ rebuildNames f styles ↔
      ∃ b ∈ styles, b.module = true ∧ x ∈ blockNames f b := by
  intro styles
  induction styles with
  | nil => simp [rebuildNames]
  | cons b l ih =>
      unfold rebuildNames
      rw [List.mem_append, ih]
      by_cases hb : b.module = true
      · rw [if_pos hb]
        constructor
        · rintro (hx | ⟨c, hc, hcm, hcx⟩)
          · exact ⟨b, List.mem_cons_self _ _, hb, hx⟩
          · exact ⟨c, List.mem_cons_of_mem _ hc, hcm, hcx⟩
        · rintro ⟨c, hc, hcm, hcx⟩
          rcases List.mem_cons.mp hc with rfl | hc2
          · exact Or.inl hcx
          · exact Or.inr ⟨c, hc2, hcm, hcx⟩
      · rw [if_neg hb]
        constructor
        · rintro (hx | ⟨c, hc, hcm, hcx⟩)
          · cases hx
          · exact ⟨c, List.mem_cons_of_mem _ hc, hcm, hcx⟩
        · rintro ⟨c, hc, hcm, hcx⟩
          rcases List.mem_cons.mp hc with rfl | hc2
          · exact absurd hcm hb
          · exact Or.inr ⟨c, hc2, hcm, hcx⟩

/-- Modelled from the spec: the SFC parse of @vue/component-compiler-utils
(not part of this repository's sources) always yields a descriptor whose
`styles` field is present — the ordered sequence of style blocks found in the
component, empty when the component has none. The block list itself is a
parameter because the parse is an external oracle. -/
def parseSFC (blocksFound : List SFCBlock) : SFCDescriptor :=
  { styles := some blocksFound }

theorem rebuildNames_nil_of_nonmodule (f : LangService → String → List SymbolInformation) :
    ∀ styles : List SFCBlock, (∀ b ∈ styles, b.module = false) →
    rebuildNames f styles = [] := by
  intro styles
  induction styles with
  | nil => intro _; rfl
  | cons b l ih =>
      intro h
      unfold rebuildNames
      rw [if_neg (by rw [h b (List.mem_cons_self _ _)]; exact Bool.false_ne_true),
        List.nil_append]
      exact ih (fun c hc => h c (List.mem_cons_of_mem _ hc))

/-- C1: the claim that a block's declared language tag selects the stylesheet
service (scss → SCSS, less → LESS) fails on the code: `getLanguageService`
matches the dotted file extensions `'.less'`/`'.scss'` while
`validateTextDocument` passes it the bare language tag, so an scss or less
block is parsed by the plain CSS service. Evaluating a rebuild of a module
block with lang scss against services that each report a distinct marker
symbol shows the CSS service's marker being published. -/
theorem C1_scss_block_parsed_by_css_service :
    getLanguageService "scss" = LangService.css ∧
    getLanguageService "less" = LangService.css ∧
    getLanguageService ".scss" = LangService.scss ∧
    getLanguageService ".less" = LangService.less ∧
    (validateTextDocument
        (fun svc _ =>
          match svc with
          | LangService.css => [{ name := ".fromCssService", kind := SymbolKind.Class }]
          | LangService.scss => [{ name := ".fromScssService", kind := SymbolKind.Class }]
          | LangService.less => [{ name := ".fromLessService", kind := SymbolKind.Class }])
        defaultSettings
        (some [{ module := true, lang := some "scss", content := "x" }])
        initialServerState).completionItems =
      [{ label := "fromCssService", kind := CompletionItemKind.Property }] := by
  exact ⟨rfl, rfl, rfl, rfl, rfl⟩

/-- C2 counterexample: the symbol named "." has class kind and a raw name
beginning with '.', yet a rebuild over a module block whose service reports
exactly this symbol admits nothing — the mapping stays empty. -/
theorem C2_counterexample :
    ((SymbolInformation.mk "." SymbolKind.Class).kind = SymbolKind.Class ∧
      (SymbolInformation.mk "." SymbolKind.Class).name.take 1 = ".") ∧
    (validateTextDocument (fun _ _ => [SymbolInformation.mk "." SymbolKind.Class])
        defaultSettings (some [{ module := true, lang := none, content := "y" }])
        initialServerState).compItemMap = [] := by
  exact ⟨⟨rfl, rfl⟩, rfl⟩

/-- C2 (amended): during a rebuild a symbol's bare name is admitted into the
mapping, with stored label the raw name minus the leading '.', exactly when
the symbol's kind is class, its raw name begins with '.', and the bare name
left after removing the dot is non-empty; in particular symbols whose names
begin with '#' contribute nothing. -/
theorem C2_admission_iff (f : LangService → String → List SymbolInformation)
    (g : Settings) (stylesOpt : Option (List SFCBlock)) (st : ServerState)
    (cn : String) :
    mapGet (validateTextDocument f g stylesOpt st).compItemMap cn =
        some { label := cn, kind := CompletionItemKind.Property } ↔
      ∃ b ∈ stylesOpt.getD [], b.module = true ∧
        ∃ sym ∈ f (getLanguageService (jsOrDefault b.lang "css")) b.content,
          sym.kind = SymbolKind.Class ∧ sym.name.take 1 = "." ∧
            sym.name.drop 1 = cn ∧ cn ≠ "" := by
  rw [validateTextDocument_spec]
  show mapGet ((dedupKeepFirst [] (rebuildNames f (stylesOpt.getD []))).map
      (fun x => (x, mkCompletionItem x))) cn = some (mkCompletionItem cn) ↔ _
  rw [mapGet_keyed]
  have hleft : (if cn ∈ dedupKeepFirst [] (rebuildNames f (stylesOpt.getD []))
        then some (mkCompletionItem cn) else none) = some (mkCompletionItem cn) ↔
      cn ∈ dedupKeepFirst [] (rebuildNames f (stylesOpt.getD [])) := by
    by_cases h : cn ∈ dedupKeepFirst [] (rebuildNames f (stylesOpt.getD []))
    · rw [if_pos h]; exact ⟨fun _ => h, fun _ => rfl⟩
    · rw [if_neg h]
      exact ⟨fun hc => absurd hc (by simp), fun hc => absurd hc h⟩
  rw [hleft, mem_dedupKeepFirst]
  rw [show (cn ∈ ([] : List String)) = False from by simp, not_false_iff, and_true]
  rw [mem_rebuildNames]
  apply exists_congr; intro b
  apply and_congr_right; intro _
  apply and_congr_right; intro _
  rw [mem_blockNames]
  apply exists_congr; intro sym
  apply and_congr_right; intro _
  rw [admittedName_eq_some]

/-- C3: published labels are unique: the published list is the image of the
first-occurrence deduplication of the admitted bare names (block order, then
symbol order), so the first symbol with a given bare name fixes the item's
position, later duplicates are dropped, the labels are pairwise distinct, and
there is exactly one item per distinct admitted bare identifier. -/
theorem C3_label_uniqueness (f : LangService → String → List SymbolInformation)
    (g : Settings) (stylesOpt : Option (List SFCBlock)) (st : ServerState) :
    (validateTextDocument f g stylesOpt st).completionItems =
        (dedupKeepFirst [] (rebuildNames f (stylesOpt.getD []))).map mkCompletionItem ∧
      ((validateTextDocument f g stylesOpt st).completionItems.map
        CompletionItem.label).Nodup ∧
      ∀ cn : String,
        mkCompletionItem cn ∈ (validateTextDocument f g stylesOpt st).completionItems ↔
          cn ∈ rebuildNames f (stylesOpt.getD []) := by
  rw [validateTextDocument_spec]
  refine ⟨rfl, ?_, ?_⟩
  · show (((dedupKeepFirst [] (rebuildNames f (stylesOpt.getD []))).map
        mkCompletionItem).map CompletionItem.label).Nodup
    rw [List.map_map]
    have hcomp : (CompletionItem.label ∘ mkCompletionItem) = id := by
      funext cn; rfl
    rw [hcomp, List.map_id]
    exact nodup_dedupKeepFirst _ _
  · intro cn
    show mkCompletionItem cn ∈ (dedupKeepFirst [] (rebuildNames f (stylesOpt.getD []))).map
        mkCompletionItem ↔ _
    rw [List.mem_map]
    constructor
    · rintro ⟨y, hy, hyc⟩
      have : y = cn := congrArg CompletionItem.label hyc
      subst this
      exact ((mem_dedupKeepFirst y _ []).mp hy).1
    · intro hcn
      exact ⟨cn, (mem_dedupKeepFirst cn _ []).mpr ⟨hcn, by simp⟩, rfl⟩

/-- C4: non-module style blocks contribute nothing: when every style block of
the document is non-module (including when there are none at all), the
rebuild produces the cleared state, so the completion list is empty. -/
theorem C4_nonmodule_blocks_empty (f : LangService → String → List SymbolInformation)
    (g : Settings) (stylesOpt : Option (List SFCBlock)) (st : ServerState)
    (h : ∀ b ∈ stylesOpt.getD [], b.module = false) :
    validateTextDocument f g stylesOpt st =
      { compItemMap := [], completionItems := [] } := by
  rw [validateTextDocument_spec,
    rebuildNames_nil_of_nonmodule f (stylesOpt.getD []) h]
  rfl

theorem C4_witness :
    (∀ b ∈ ((some [SFCBlock.mk false (some "css") "stuff"]).getD [] : List SFCBlock),
        b.module = false) ∧
    validateTextDocument (fun _ _ => [SymbolInformation.mk ".hello" SymbolKind.Class])
        defaultSettings (some [SFCBlock.mk false (some "css") "stuff"])
        initialServerState =
      { compItemMap := [], completionItems := [] } :=
  ⟨by decide, C4_nonmodule_blocks_empty _ _ _ initialServerState (by decide)⟩

/-- C5: the completion handler ignores the requested position and document
entirely and returns the published completion list verbatim: before any
rebuild it returns the empty list, and the answer is identical for every
position requested. -/
theorem C5_onCompletion_ignores_position :
    (∀ p : TextDocumentPositionParams, onCompletion initialServerState p = []) ∧
    (∀ (st : ServerState) (p q : TextDocumentPositionParams),
        onCompletion st p = onCompletion st q) ∧
    (∀ (st : ServerState) (p : TextDocumentPositionParams),
        onCompletion st p = st.completionItems) :=
  ⟨fun _ => rfl, fun _ _ _ => rfl, fun _ _ => rfl⟩

/-- C6 counterexample: starting from a state whose published list is
non-empty, a rebuild whose SFC parse fails leaves the empty published list,
not the previous one — the state was cleared before the parse ran. -/
theorem C6_counterexample :
    (validateTextDocumentWithParse (fun _ _ => []) defaultSettings
        (Except.error ())
        (ServerState.mk [("app", CompletionItem.mk "app" CompletionItemKind.Property)]
          [CompletionItem.mk "app" CompletionItemKind.Property])).completionItems = [] ∧
    (ServerState.mk [("app", CompletionItem.mk "app" CompletionItemKind.Property)]
        [CompletionItem.mk "app" CompletionItemKind.Property]).completionItems ≠ [] :=
  ⟨rfl, by decide⟩

/-- C6 (amended): an SFC parse error during a rebuild is not caught, but the
observable state does not stay as it was before the rebuild: the mapping and
the published list are cleared before the parser runs, so after the failed
rebuild the observable completion list is empty. -/
theorem C6_error_leaves_cleared_state (f : LangService → String → List SymbolInformation)
    (g : Settings) (e : Unit) (st : ServerState) :
    validateTextDocumentWithParse f g (Except.error e) st =
      { compItemMap := [], completionItems := [] } := rfl

/-- C7: `getStyles` returns the ordered sequence of style blocks of the
descriptor produced by the SFC parse; because a JavaScript array is truthy
even when empty, the `|| null` fallback never fires for a parse result, so a
component with no style blocks yields `some []` — an empty sequence, not an
absent value. -/
theorem C7_getStyles_returns_sequence :
    (∀ blocksFound : List SFCBlock,
        VueParser.getStyles (parseSFC blocksFound) = some blocksFound) ∧
    VueParser.getStyles (parseSFC []) = some [] :=
  ⟨fun _ => rfl, rfl⟩

/-- C8: a rebuild discards the prior mapping and published list entirely (its
result does not depend on the prior state), and when it returns, the
published completion list equals exactly the mapping's values in insertion
order. -/
theorem C8_full_replacement (f : LangService → String → List SymbolInformation)
    (g : Settings) (stylesOpt : Option (List SFCBlock)) (st st' : ServerState) :
    validateTextDocument f g stylesOpt st = validateTextDocument f g stylesOpt st' ∧
    (validateTextDocument f g stylesOpt st).completionItems =
      mapValues ((validateTextDocument f g stylesOpt st).compItemMap) := by
  refine ⟨rfl, ?_⟩
  unfold validateTextDocument
  exact foldBlocks_items f _ ⟨[], []⟩ rfl

/-- C9 counterexample: the server-side default of `maxNumberOfProblems` is
1000, not 100. -/
theorem C9_counterexample : defaultSettings.maxNumberOfProblems ≠ 100 := by
  decide

/-- C9 (amended): the configuration surface is the single numeric setting
`maxNumberOfProblems`, whose default in the server is 1000 (the package.json
contribution declares 100 on the client side), and the rebuild never consults
it: its result is the same for every value of the module-level settings. -/
theorem C9_settings_never_consulted :
    defaultSettings.maxNumberOfProblems = 1000 ∧
    ∀ (f : LangService → String → List SymbolInformation)
      (stylesOpt : Option (List SFCBlock)) (st : ServerState) (g g' : Settings),
      validateTextDocument f g stylesOpt st = validateTextDocument f g' stylesOpt st :=
  ⟨rfl, fun _ _ _ _ _ => rfl⟩

/-- C10: no published completion item ever has an empty label: the class-kind
symbol named exactly "." yields the empty bare identifier, which the falsy
guard rejects just as it rejects names not starting with '.', and every label
in any rebuilt list is non-empty. -/
theorem C10_no_empty_labels :
    (∀ m : CompMap, symStep m (SymbolInformation.mk "." SymbolKind.Class) = m) ∧
    ∀ (f : LangService → String → List SymbolInformation) (g : Settings)
      (stylesOpt : Option (List SFCBlock)) (st : ServerState),
      ((validateTextDocument f g stylesOpt st).completionItems.all
        (fun item => item.label != "")) = true := by
  constructor
  · intro m; rfl
  · intro f g stylesOpt st
    rw [validateTextDocument_spec]
    rw [List.all_eq_true]
    intro item hitem
    show (item.label != "") = true
    obtain ⟨cn, hcn, rfl⟩ := List.mem_map.mp hitem
    have hnames : cn ∈ rebuildNames f (stylesOpt.getD []) :=
      ((mem_dedupKeepFirst cn _ []).mp hcn).1
    obtain ⟨b, _, _, hbn⟩ := (mem_rebuildNames f cn _).mp hnames
    obtain ⟨sym, _, ha⟩ := (mem_blockNames f b cn).mp hbn
    have hne := ((admittedName_eq_some sym cn).mp ha).2.2.2
    simp [mkCompletionItem, hne]
